import Mathlib

/-!
Verification of the concatenative ("Forth-like") JavaScript virtual machine
of this repository.  The development shallowly embeds the VM of the source
variants (part_000, part_001, e.js, c.js): the data stack, the return stack,
the code space, the dictionary, the threaded interpreter loop `runitl`, the
native-word wrapper `runNative`, and the CREATE/DOES> primitives, and proves
or refutes the specified properties about them.
-/

namespace Gnat

/-- A dynamically-typed JavaScript value as it appears on the VM's data stack
or inside a literal cell.  `undef` is JavaScript's `undefined`.  Host function
objects and the `vm` object itself are not representable as stack values; the
source only compares against them (`r !== vm`), never stores them on `vm.s`
in the executions modelled here. -/
inductive Value where
  | num  : Int → Value
  | str  : String → Value
  | bool : Bool → Value
  | null : Value
  | undef : Value
  | arr  : List Value → Value

/-- The error kinds named by the specification (section 7), plus
`redefinedWord`: the `TypeError: Cannot redefine property` that
`Object.defineProperty` raises when registering a word under a name that
already has a (non-configurable) word property — the source declares only
`vm.cfa` with `configurable:true`. -/
inductive VMError where
  | stackUnderflow
  | returnStackUnderflow
  | undefinedWord
  | invalidWordName
  | arityMismatch
  | redefinedWord
deriving DecidableEq, Repr

/-- Whether a value is JavaScript's `undefined` (the `r !== undefined`
test of `runNative`). -/
def Value.isUndef : Value → Bool
  | .undef => true
  | _ => false

/-- JavaScript truthiness (`Boolean(v)`) restricted to the representable
values: `0`, the empty string, `false`, `null` and `undefined` are falsy,
every array (object) is truthy.  (`NaN` does not arise in the integer
model.) -/
def truthy : Value → Bool
  | .num n => n ≠ 0
  | .str s => s ≠ ""
  | .bool b => b
  | .null => false
  | .undef => false
  | .arr _ => true

/-- `s.splice(s.length - A, A)` on a JavaScript array `s`, returning
`(remaining, removed)`.  Per ECMAScript, a negative relative start
`s.length - A` is clamped to `max(s.length + (s.length - A), 0)`, i.e. to
`2*s.length - A` in truncated natural subtraction; the delete count then
always reaches the end of the array, so the call splits `s` at that index. -/
def jsSpliceTail (s : List Value) (A : Nat) : List Value × List Value :=
  let start := if A ≤ s.length then s.length - A else 2 * s.length - A
  (s.take start, s.drop start)

/-- The result-push step shared by the `runNative` closures of part_000,
part_001 and e.js: `if (r !== vm && r !== undefined) vm.s.push(r)`.  The
`r !== vm` guard is about the host `vm` object, which is not a `Value`;
callables are modelled as `Value`-returning, so only the `undefined` test
remains. -/
def pushResult (r : Value) : List Value :=
  if r.isUndef then [] else [r]

/-- The argument list a native word of declared arity `A` hands to its host
callable: the values removed by `vm.s.splice(vm.s.length-A, A)` (in array
order, i.e. oldest first), padded by `fn.apply` with `undefined` for every
missing positional parameter. -/
def natArgs (A : Nat) (s : List Value) : List Value :=
  let removed := (jsSpliceTail s A).2
  removed ++ List.replicate (A - removed.length) Value.undef

/-- `runNative` of part_000 (lines 86-93) / e.js (lines 93-101) / part_001
(lines 95-103), acting on the data stack `vm.s`:
`var r = fn.apply(ctx, vm.s.splice(vm.s.length-fn.length, fn.length));
 if (r !== vm && r !== undefined) vm.s.push(r);`
The body can raise no error (splice is total), so the result is always
`.ok`; the `Except` codomain records that the source has no underflow
check. -/
def runNative (A : Nat) (f : List Value → Value) (s : List Value) :
    Except VMError (List Value) :=
  Except.ok ((jsSpliceTail s A).1 ++ pushResult (f (natArgs A s)))

/-- The `native`/`pusher` cell of c.js (lines 73-84):
`var res = fn.apply(null, self.vm.s.splice(self.vm.s.length-fn.length, fn.length));
 if (res && res !== self.vm.s) self.vm.s.push(res);`
Unlike `runNative`, the result is pushed only when *truthy* (`res && ...`);
the `res !== self.vm.s` identity guard concerns the host stack array object,
not a representable `Value`. -/
def cjsNative (A : Nat) (f : List Value → Value) (s : List Value) :
    Except VMError (List Value) :=
  let r := f (natArgs A s)
  Except.ok ((jsSpliceTail s A).1 ++ if truthy r then [r] else [])

/-- A concrete two-argument callable: integer addition (corelib `add`). -/
def addF : List Value → Value
  | [Value.num a, Value.num b] => Value.num (a + b)
  | _ => Value.undef

/-- A concrete callable that returns the exact argument list it received,
as one array value; used to observe what a native word passes along. -/
def recordArgsF : List Value → Value :=
  fun l => Value.arr l

/-- Splitting point of `jsSpliceTail` when the stack is deep enough. -/
theorem jsSpliceTail_of_le {s : List Value} {A : Nat} (h : A ≤ s.length) :
    jsSpliceTail s A = (s.take (s.length - A), s.drop (s.length - A)) := by
  simp [jsSpliceTail, h]

/-- Splitting point of `jsSpliceTail` on an underflowing stack. -/
theorem jsSpliceTail_of_lt {s : List Value} {A : Nat} (h : s.length < A) :
    jsSpliceTail s A = (s.take (2 * s.length - A), s.drop (2 * s.length - A)) := by
  have h' : ¬ A ≤ s.length := Nat.not_le_of_lt h
  simp [jsSpliceTail, h']

/-- Popping exactly one value: `jsSpliceTail (l ++ [a]) 1 = (l, [a])`. -/
theorem jsSpliceTail_concat (l : List Value) (a : Value) :
    jsSpliceTail (l ++ [a]) 1 = (l, [a]) := by
  have hlen : (l ++ [a]).length = l.length + 1 := by simp
  have h1 : 1 ≤ (l ++ [a]).length := by omega
  rw [jsSpliceTail_of_le h1, hlen]
  simp

/-- With at least `A` values on the stack, a native word's callable receives
exactly the top `A` values, oldest first, with no `undefined` padding. -/
theorem natArgs_of_le {s : List Value} {A : Nat} (h : A ≤ s.length) :
    natArgs A s = s.drop (s.length - A) := by
  unfold natArgs
  rw [jsSpliceTail_of_le h]
  simp [List.length_drop]
  omega

/-- C1 counterexample.  With a 2-deep stack and a declared arity of 3, the
source raises no `StackUnderflow` at all: the clamped splice removes only
the top value and the call completes, returning `[1]` (the callable got
`(2, undefined, undefined)`, which `addF` maps to `undefined`, so nothing
is pushed). -/
theorem runNative_underflow_no_error :
    runNative 3 addF [Value.num 1, Value.num 2] = Except.ok [Value.num 1] ∧
    runNative 3 addF [Value.num 1, Value.num 2] ≠
      Except.error VMError.stackUnderflow := by
  refine ⟨rfl, fun h => ?_⟩
  rw [show runNative 3 addF [Value.num 1, Value.num 2] = Except.ok [Value.num 1]
    from rfl] at h
  exact Except.noConfusion h

/-- C1, amended.  Invoking a native word of arity `A`: with at least `A`
values on the data stack it removes exactly the top `A`, passes them to the
callable oldest-first and pushes the callable's result if there is one; with
fewer than `A` values no error is raised: the splice start clamps to
`2*len - A`, the surviving stack prefix is `s.take (2*len - A)`, and the
callable is called with the removed values padded with `undefined`. -/
theorem runNative_arity (A : Nat) (f : List Value → Value) (s : List Value) :
    (A ≤ s.length →
      runNative A f s =
        Except.ok (s.take (s.length - A) ++
          pushResult (f (s.drop (s.length - A))))) ∧
    (s.length < A →
      runNative A f s =
        Except.ok (s.take (2 * s.length - A) ++
          pushResult (f (s.drop (2 * s.length - A) ++
            List.replicate (A - (s.length - (2 * s.length - A)))
              Value.undef)))) := by
  constructor
  · intro h
    unfold runNative
    rw [natArgs_of_le h, jsSpliceTail_of_le h]
  · intro h
    unfold runNative natArgs
    rw [jsSpliceTail_of_lt h]
    simp [List.length_drop]

/-- Witness for `runNative_arity` at concrete inputs for both regimes. -/
theorem runNative_arity_witness :
    runNative 2 addF [Value.num 3, Value.num 4] = Except.ok [Value.num 7] ∧
    runNative 3 addF [Value.num 5] = Except.ok ([] : List Value) := by
  constructor
  · exact ((runNative_arity 2 addF [Value.num 3, Value.num 4]).1
      (by norm_num)).trans rfl
  · exact ((runNative_arity 3 addF [Value.num 5]).2 (by norm_num)).trans rfl

/-- C9 counterexample.  With stack `[1, 2]` and arity 3 the splice does
*not* clamp to the stack bottom: it removes only the top value `2` (the
callable receives `(2, undefined, undefined)`), and the bottom value `1`
survives on the stack — the claim predicted all present values removed and
passed, i.e. result `[[1, 2, undefined]]`. -/
theorem runNative_underflow_partial_pop :
    runNative 3 recordArgsF [Value.num 1, Value.num 2] =
      Except.ok [Value.num 1,
        Value.arr [Value.num 2, Value.undef, Value.undef]] ∧
    Except.map List.length
        (runNative 3 recordArgsF [Value.num 1, Value.num 2]) ≠
      Except.map List.length
        (Except.ok ([Value.arr [Value.num 1, Value.num 2, Value.undef]] :
          List Value)) := by
  refine ⟨rfl, fun h => ?_⟩
  rw [show Except.map List.length
        (runNative 3 recordArgsF [Value.num 1, Value.num 2]) =
      Except.ok 2 from rfl,
    show Except.map List.length
        (Except.ok ([Value.arr [Value.num 1, Value.num 2, Value.undef]] :
          List Value)) = Except.ok 1 from rfl] at h
  simp only [Except.ok.injEq] at h
  exact absurd h (by decide)

/-- C9, amended.  Invoking a native word of arity `A` on a stack with
`len < A` values raises no error and continues normally, but the splice
keeps the bottom `2*len - A` values: exactly `min len (A - len)` values are
removed from the top, passed oldest-first and padded with `undefined` up to
arity. -/
theorem runNative_underflow_clamp (A : Nat) (f : List Value → Value)
    (s : List Value) (h : s.length < A) :
    runNative A f s =
      Except.ok (s.take (2 * s.length - A) ++
        pushResult (f (s.drop (2 * s.length - A) ++
          List.replicate (A - (s.length - (2 * s.length - A)))
            Value.undef))) ∧
    (s.drop (2 * s.length - A)).length = min s.length (A - s.length) := by
  constructor
  · unfold runNative natArgs
    rw [jsSpliceTail_of_lt h]
    simp [List.length_drop]
  · simp [List.length_drop]
    omega

/-- Witness for `runNative_underflow_clamp`: stack `[1, 2]`, arity 3. -/
theorem runNative_underflow_clamp_witness :
    runNative 3 recordArgsF [Value.num 1, Value.num 2] =
      Except.ok [Value.num 1,
        Value.arr [Value.num 2, Value.undef, Value.undef]] ∧
    ([Value.num 1, Value.num 2].drop 1).length = 1 := by
  have h := runNative_underflow_clamp 3 recordArgsF
    [Value.num 1, Value.num 2] (by norm_num)
  exact ⟨h.1.trans rfl, by decide⟩

/-- C5 counterexample.  In the c.js `native` cell a *falsy* result is not
pushed: a callable returning `0` (here `1 + (-1)`) leaves the stack empty,
where the claim predicted `[0]`. -/
theorem cjsNative_drops_falsy :
    cjsNative 2 addF [Value.num 1, Value.num (-1)] =
      Except.ok ([] : List Value) ∧
    Except.map List.length
        (cjsNative 2 addF [Value.num 1, Value.num (-1)]) ≠
      Except.map List.length (Except.ok ([Value.num 0] : List Value)) := by
  refine ⟨rfl, fun h => ?_⟩
  rw [show Except.map List.length
        (cjsNative 2 addF [Value.num 1, Value.num (-1)]) =
      Except.ok 0 from rfl,
    show Except.map List.length
        (Except.ok ([Value.num 0] : List Value)) = Except.ok 1 from rfl] at h
  simp only [Except.ok.injEq] at h
  exact absurd h (by decide)

/-- C5, amended.  In the `runNative` variants (part_000, part_001, e.js) a
defined result — falsy ones like `0`, `""`, `false`, `null` included — is
pushed as exactly one value, and an `undefined` result pushes nothing; in
the c.js `native` variant the result is pushed only when truthy, so falsy
results are dropped there. -/
theorem native_result_push (A : Nat) (f : List Value → Value)
    (s : List Value) :
    ((f (natArgs A s)).isUndef = false →
      runNative A f s =
        Except.ok ((jsSpliceTail s A).1 ++ [f (natArgs A s)])) ∧
    ((f (natArgs A s)).isUndef = true →
      runNative A f s = Except.ok (jsSpliceTail s A).1) ∧
    (truthy (f (natArgs A s)) = true →
      cjsNative A f s =
        Except.ok ((jsSpliceTail s A).1 ++ [f (natArgs A s)])) ∧
    (truthy (f (natArgs A s)) = false →
      cjsNative A f s = Except.ok (jsSpliceTail s A).1) := by
  refine ⟨fun h => ?_, fun h => ?_, fun h => ?_, fun h => ?_⟩ <;>
    simp [runNative, cjsNative, pushResult, h]

/-- Witness for `native_result_push`: a callable producing the falsy value
`0` has it pushed by `runNative` but dropped by the c.js variant. -/
theorem native_result_push_witness :
    runNative 2 addF [Value.num 1, Value.num (-1)] =
      Except.ok [Value.num 0] ∧
    cjsNative 2 addF [Value.num 1, Value.num (-1)] =
      Except.ok ([] : List Value) := by
  constructor
  · exact ((native_result_push 2 addF [Value.num 1, Value.num (-1)]).1
      (by decide)).trans rfl
  · exact ((native_result_push 2 addF
      [Value.num 1, Value.num (-1)]).2.2.2 (by decide)).trans rfl

/-! ### The virtual machine

Code Space `vm.x` in part_000 is a heterogeneous array: host function
closures (runNative wrappers, `_defineCFA` colon-call closures, `runDoes`
closures, `_does_setcfa` closures, the core primitives) and raw data
(arrays doubling as literal cells, plus arbitrary values appended by
`store`).  `Cell` defunctionalises exactly those shapes. -/

/-- One cell of Code Space `vm.x` (part_000). -/
inductive Cell where
  /-- a `runNative` closure wrapping a host callable of the given arity -/
  | native (arity : Nat) (f : List Value → Value)
  /-- a raw array: a literal cell (or a stored array — indistinguishable) -/
  | lits (vs : List Value)
  /-- a `_defineCFA` closure: `runitl(start)` for a colon-defined word -/
  | call (start : Nat)
  /-- a `runDoes` closure: push the private link, then `runitl(start)` -/
  | callDoes (link : Value) (start : Nat)
  /-- a `_does_setcfa` closure compiled by the immediate word `does` -/
  | doesSet (start : Nat)
  /-- `nativelib.store` (arity 1): pop a value, append it to `vm.x` -/
  | storeC
  /-- `nativelib.load` (arity 1): pop an index, push `vm.x[a]` -/
  | loadC
  /-- `purelib.create`: pop a name, define it over a fresh data cell -/
  | createC
  /-- `purelib.exit`: `vm.i = vm.r.pop()` -/
  | exitc
  /-- a raw non-array value stored in `vm.x` (a `create`d word's data) -/
  | data (v : Value)

/-- The behaviour bound to a dictionary name: the closure the `vm.cfa`
property reads and writes (the `fn` variable of `staticDefine`). -/
inductive WordFn where
  /-- `function(){ return cfa }` — a non-function definition, e.g. the
  Code Space address captured by `create` -/
  | constant (v : Value)
  /-- a host callable invoked through `runNative` -/
  | native (arity : Nat) (f : List Value → Value)
  /-- `_defineCFA`: run the threaded loop from `start` -/
  | colon (start : Nat)
  /-- `runDoes`: push the private `link`, then run from `start` -/
  | doesBound (link : Value) (start : Nat)
  /-- `nativelib.store` -/
  | storeP
  /-- `nativelib.load` -/
  | loadP
  /-- `purelib.create` -/
  | createP
  /-- `purelib.exit` -/
  | exitP

/-- A dictionary entry: the word's behaviour plus its immediate flag
(`what.immediate` in the part_001 / e.js getter). -/
structure Entry where
  fn : WordFn
  imm : Bool

/-- The machine state `vm = {s, r, x, i, compiling}` of part_000, together
with the dictionary held on `ConcatenativeFunction.prototype` and the
target of the `vm.cfa` property (the most recently defined word). -/
structure VM where
  /-- the data stack `vm.s` (index 0 is the bottom, the tail is the top) -/
  s : List Value
  /-- the return stack `vm.r` (head is the top) of saved `vm.i` values -/
  r : List (Option Nat)
  /-- the code space `vm.x` -/
  x : List Cell
  /-- the instruction pointer `vm.i` (`none` is JavaScript `undefined`) -/
  i : Option Nat
  /-- word name → entry, newest first (shadowing lookup) -/
  dict : List (String × Entry)
  /-- which word the `vm.cfa` getter/setter currently targets -/
  lastDefined : Option String
  /-- the `vm.compiling` flag (truthy while a definition is open) -/
  compiling : Bool

/-- Dictionary lookup, newest entry first. -/
def dlookup (k : String) : List (String × Entry) → Option Entry
  | [] => none
  | (k', e) :: d => if k' = k then some e else dlookup k d

/-- The `vm.cfa` setter: replace the behaviour of the named word (its
immediate flag is per-entry, as in the part_001 / e.js getter that tests
the originally registered `what.immediate`). -/
def dsetFn (k : String) (fn : WordFn) : List (String × Entry) → List (String × Entry)
  | [] => []
  | (k', e) :: d =>
      if k' = k then (k', { e with fn := fn }) :: d
      else (k', e) :: dsetFn k fn d

/-- How a raw JavaScript value appended to `vm.x` is represented as a
cell: an array is (indistinguishably) a literal cell, anything else a
plain data cell. -/
def encodeCell : Value → Cell
  | .arr l => .lits l
  | v => .data v

/-- `purelib.create` (part_000 lines 190-193):
`var name = vm.s.pop(); ConcatenativeFunction.define(name, vm.x.length, vm)`.
A non-string popped name makes `staticDefine` throw, modelled as `none`.
The new word's behaviour is the constant function returning the captured
Code Space address; `define` also retargets `vm.cfa` at the new word. -/
def createOp (st : VM) : Option VM :=
  match st.s.getLast? with
  | some (Value.str n) =>
      some { st with
        s := st.s.dropLast,
        dict := (n, ⟨WordFn.constant (Value.num st.x.length), false⟩) :: st.dict,
        lastDefined := some n }
  | _ => none

/-- `nativelib.store` invoked as a word: `runNative` pops one argument
(`undefined` on an empty stack) and the body appends it raw to `vm.x`. -/
def storeOp (st : VM) : VM :=
  let p := jsSpliceTail st.s 1
  { st with s := p.1, x := st.x ++ [encodeCell (p.2.headD Value.undef)] }

/-- `nativelib.load` invoked as a word: `runNative` pops one argument and
the body returns `vm.x[a]`, which `runNative` pushes unless `undefined`.
An out-of-range or non-numeric index reads `undefined` (nothing pushed).
Reading a cell that holds a host function object is not modelled (`none`):
the function value is not representable on the modelled stack. -/
def loadOp (st : VM) : Option VM :=
  match (jsSpliceTail st.s 1).2.headD Value.undef with
  | Value.num m =>
      if 0 ≤ m then
        match st.x[m.toNat]? with
        | some (Cell.lits l) =>
            some { st with s := (jsSpliceTail st.s 1).1 ++ [Value.arr l] }
        | some (Cell.data v) =>
            some { st with s := (jsSpliceTail st.s 1).1 ++ pushResult v }
        | none => some { st with s := (jsSpliceTail st.s 1).1 }
        | some _ => none
      else some { st with s := (jsSpliceTail st.s 1).1 }
  | _ => some { st with s := (jsSpliceTail st.s 1).1 }

/-- `purelib.exit`: `vm.i = vm.r.pop()` — popping an empty return stack
yields `undefined`, which halts the loop. -/
def exitOp (st : VM) : VM :=
  match st.r with
  | [] => { st with i := none, r := [] }
  | v :: rest => { st with i := v, r := rest }

/-- The `_does_setcfa` closure (part_000 lines 204-219) executing inside a
factory body: `var link = vm.cfa(); vm.cfa = runDoes` — it reads the data
address of the word the enclosing `create` just defined and rebinds that
word to `runDoes(link, start)`.  Calling `vm.cfa()` is only modelled for
the constant behaviour `create` installs. -/
def doesSetOp (b : Nat) (st : VM) : Option VM :=
  match st.lastDefined with
  | some n =>
      match dlookup n st.dict with
      | some e =>
          match e.fn with
          | WordFn.constant v =>
              some { st with dict := dsetFn n (WordFn.doesBound v b) st.dict }
          | _ => none
      | none => none
  | none => none

/-- One iteration of the `runitl` loop body of part_000 (lines 141-149):
`var r = vm.x[vm.i++]; if (typeof r === "function") r = r(); else
[].push.apply(vm.s, [].reverse.call(r))`.  `ip` is the index the cell was
read from; `vm.i` is already `ip + 1` when the cell acts.  A raw array is
reversed *in place* (mutating the Code Space cell) and pushed; executing a
raw non-array value throws (`none`). -/
def stepCell (c : Cell) (ip : Nat) (st : VM) : Option VM :=
  match c with
  | .native A f =>
      match runNative A f st.s with
      | .ok s' => some { st with s := s', i := some (ip + 1) }
      | .error _ => none
  | .lits vs =>
      some { st with s := st.s ++ vs.reverse,
                     x := st.x.set ip (Cell.lits vs.reverse),
                     i := some (ip + 1) }
  | .call b => some { st with r := some (ip + 1) :: st.r, i := some b }
  | .callDoes link b =>
      some { st with s := st.s ++ pushResult link,
                     r := some (ip + 1) :: st.r, i := some b }
  | .doesSet b => (doesSetOp b st).map (fun st' => { st' with i := some (ip + 1) })
  | .storeC => some { storeOp st with i := some (ip + 1) }
  | .loadC => (loadOp st).map (fun st' => { st' with i := some (ip + 1) })
  | .createC => (createOp st).map (fun st' => { st' with i := some (ip + 1) })
  | .exitc => some (exitOp st)
  | .data _ => none

/-- The fuelled `while (vm.i !== undefined)` loop of `runitl`.  `none`
covers both a thrown error (reading past `vm.x`, executing raw data) and
fuel exhaustion; `some` is a completed, non-erroring run. -/
def runLoop : Nat → VM → Option VM
  | 0, st =>
      match st.i with
      | none => some st
      | some _ => none
  | n + 1, st =>
      match st.i with
      | none => some st
      | some ip =>
          match st.x[ip]? with
          | none => none
          | some c => (stepCell c ip st).bind (runLoop n)

/-- `runitl(start)` of part_000 (lines 137-151): push the current `vm.i`
onto the return stack, jump to `start`, and run the loop only if this is
the outermost invocation (`vm.r.length === 1` after the push). -/
def runitl (fuel : Nat) (b : Nat) (st : VM) : Option VM :=
  let st1 := { st with r := st.i :: st.r, i := some b }
  if st.r = [] then runLoop fuel st1 else some st1

/-- Invoking a word's behaviour through the property getter's
`runNative()` path (the not-compiling branch). -/
def execFn (fuel : Nat) (fn : WordFn) (st : VM) : Option VM :=
  match fn with
  | .constant v => some { st with s := st.s ++ pushResult v }
  | .native A f =>
      match runNative A f st.s with
      | .ok s' => some { st with s := s' }
      | .error _ => none
  | .colon b => runitl fuel b st
  | .doesBound link b => runitl fuel b { st with s := st.s ++ pushResult link }
  | .storeP => some (storeOp st)
  | .loadP => loadOp st
  | .createP => createOp st
  | .exitP => some (exitOp st)

/-- The cell the compiling branch of the getter appends for a word
(`vm.x.push(runNative)` for host callables, `vm.x.push(fn)` for the
`context === vm` core words). -/
def cellOf : WordFn → Cell
  | .constant v => .native 0 (fun _ => v)
  | .native A f => .native A f
  | .colon b => .call b
  | .doesBound link b => .callDoes link b
  | .storeP => .storeC
  | .loadP => .loadC
  | .createP => .createC
  | .exitP => .exitc

/-- The property getter of `staticDefine` (part_000 lines 96-110): while
`vm.compiling` is truthy and the word is not immediate, append a call cell
and do not execute; otherwise execute the behaviour right now.  An
absent name is `UndefinedWord` (`none`). -/
def referenceWord (fuel : Nat) (k : String) (st : VM) : Option VM :=
  match dlookup k st.dict with
  | none => none
  | some e =>
      if st.compiling && !e.imm then
        some { st with x := st.x ++ [cellOf e.fn] }
      else
        execFn fuel e.fn st

/-- `popLiterals` of part_001 / e.js (lines 72-74):
`[].push.apply(vm.s, [].reverse.call(vm.x[vm.i++]))` — read the literal
cell at `vm.i`, reverse it *in place*, push the (reversed) contents. -/
def popLiterals (st : VM) : Option VM :=
  match st.i with
  | some ip =>
      match st.x[ip]? with
      | some (Cell.lits vs) =>
          some { st with s := st.s ++ vs.reverse,
                         x := st.x.set ip (Cell.lits vs.reverse),
                         i := some (ip + 1) }
      | _ => none
  | none => none

/-- `_literal` of c.js (lines 86-88):
`this.vm.s.push.apply(this.vm.s, this.vm.x[++this.vm.i])` — push the
literal list verbatim, with no reversal and no cell mutation. -/
def clit (vs s : List Value) : List Value := s ++ vs

/-- `ConcatenativeFunction.define`'s name handling (part_000 lines
72-75 and 96, part_001 lines 84-87 and 105): only `typeof k !== 'string'`
is rejected explicitly (a `TypeError`, the spec's `InvalidWordName`); the
e.js variant (line 85 onward) performs not even that check.  Any *fresh*
string key — the empty string included — is then accepted, and
`Object.defineProperty(this.prototype, k, {enumerable:true, get(){...}})`
installs the word property.  That property is non-configurable
(`configurable` defaults to `false`; only `vm.cfa` is declared
`configurable:true`), so registering a name that already has a word
property makes `Object.defineProperty` throw
`TypeError: Cannot redefine property` (`redefinedWord`) and no entry is
added. -/
def defineName (k : Value) (e : Entry) (st : VM) : Except VMError VM :=
  match k with
  | .str n =>
      match dlookup n st.dict with
      | some _ => .error VMError.redefinedWord
      | none =>
          .ok { st with dict := (n, e) :: st.dict, lastDefined := some n }
  | _ => .error VMError.invalidWordName

/-! ### gather / spread -/

/-- The body of `gather(idx)` (part_000 line 164, e.js line 163):
`vm.s.push(vm.s.splice(vm.s.length-idx, idx))` — remove the top `idx`
values and push them back as one array value, in original order. -/
def gatherFn (idx : Nat) (s : List Value) : List Value :=
  (jsSpliceTail s idx).1 ++ [Value.arr (jsSpliceTail s idx).2]

/-- The body of `spread(arr)` (part_000 line 163, e.js line 162):
`vm.s.push.apply(vm.s, arr)`.  `apply` with `null`/`undefined` pushes
nothing; with a non-object argument it throws (`none`). -/
def spreadFn (a : Value) (s : List Value) : Option (List Value) :=
  match a with
  | .arr l => some (s ++ l)
  | .null => some s
  | .undef => some s
  | _ => none

/-- The word `.gather`: `runNative` first pops the one declared argument
(the count), then the body splices.  A non-numeric count (JS coercion) and
the `NaN` arithmetic of an empty-stack invocation are not modelled; a
negative count deletes nothing and pushes an empty array. -/
def gatherWord (s : List Value) : Option (List Value) :=
  match (jsSpliceTail s 1).2 with
  | [Value.num m] =>
      if 0 ≤ m then some (gatherFn m.toNat (jsSpliceTail s 1).1)
      else some ((jsSpliceTail s 1).1 ++ [Value.arr []])
  | _ => none

/-- The word `.spread`: `runNative` pops the one declared argument, then
the body pushes its elements.  On an empty stack the popped argument is
`undefined` and nothing is pushed. -/
def spreadWord (s : List Value) : Option (List Value) :=
  match (jsSpliceTail s 1).2 with
  | [a] => spreadFn a (jsSpliceTail s 1).1
  | _ => some s

/-- C7.  For any stack holding at least `n` values below the count `n`,
`gather(n)` followed by `spread` restores the stack exactly: the same `n`
values in their original order, the rest untouched. -/
theorem gather_spread_roundtrip (base : List Value) (n : Nat)
    (h : n ≤ base.length) :
    (gatherWord (base ++ [Value.num (n : Int)])).bind spreadWord =
      some base := by
  have h1 := jsSpliceTail_concat base (Value.num (n : Int))
  simp only [gatherWord, h1, Int.natCast_nonneg, if_true, Int.toNat_natCast,
    Option.bind_some, Option.some_bind]
  simp only [gatherFn, jsSpliceTail_of_le h]
  simp only [spreadWord, jsSpliceTail_concat, spreadFn]
  rw [List.take_append_drop]

/-- Witness for `gather_spread_roundtrip`: gathering and spreading the top
2 of a 3-deep stack. -/
theorem gather_spread_roundtrip_witness :
    (gatherWord [Value.str "a", Value.num 7, Value.bool true,
        Value.num 2]).bind spreadWord =
      some [Value.str "a", Value.num 7, Value.bool true] := by
  exact gather_spread_roundtrip [Value.str "a", Value.num 7, Value.bool true]
    2 (by norm_num)

/-! ### Literal cells -/

/-- C4 counterexample.  Executing a literal cell compiled from `(1, 2)`
pushes `2` first and leaves `1` on top — the reverse of the claimed
original order `[1, 2]`. -/
theorem literal_push_reversed_cex :
    (popLiterals
        ⟨[], [], [Cell.lits [Value.num 1, Value.num 2]], some 0, [], none,
          false⟩).map VM.s = some [Value.num 2, Value.num 1] ∧
    (popLiterals
        ⟨[], [], [Cell.lits [Value.num 1, Value.num 2]], some 0, [], none,
          false⟩).map VM.s ≠ some [Value.num 1, Value.num 2] := by
  refine ⟨rfl, fun h => ?_⟩
  rw [show (popLiterals
      ⟨[], [], [Cell.lits [Value.num 1, Value.num 2]], some 0, [], none,
        false⟩).map VM.s = some [Value.num 2, Value.num 1] from rfl] at h
  simp only [Option.some.injEq, List.cons.injEq, Value.num.injEq] at h
  exact absurd h.1 (by decide)

/-- C4, amended.  A literal-push cell compiled from `v1, ..., vn` pushes
the values in *reversed* order (`vn` deepest, `v1` on top) and reverses the
stored cell in place, so consecutive executions alternate between the two
orders; only the c.js `_literal` variant pushes the values verbatim, in
original order, identically on every execution. -/
theorem literal_push_order (st : VM) (ip : Nat) (vs : List Value)
    (hi : st.i = some ip) (hx : st.x[ip]? = some (Cell.lits vs)) :
    popLiterals st =
      some { st with s := st.s ++ vs.reverse,
                     x := st.x.set ip (Cell.lits vs.reverse),
                     i := some (ip + 1) } ∧
    (∀ s : List Value, clit vs s = s ++ vs) := by
  refine ⟨?_, fun s => rfl⟩
  simp [popLiterals, hi, hx]

/-- Witness for `literal_push_order`. -/
theorem literal_push_order_witness :
    popLiterals
        ⟨[], [], [Cell.lits [Value.num 1, Value.num 2]], some 0, [], none,
          false⟩ =
      some ⟨[Value.num 2, Value.num 1],
        [], [Cell.lits [Value.num 2, Value.num 1]], some 1, [], none,
        false⟩ ∧
    clit [Value.num 1, Value.num 2] [] = [Value.num 1, Value.num 2] := by
  have h := literal_push_order
    ⟨[], [], [Cell.lits [Value.num 1, Value.num 2]], some 0, [], none,
      false⟩ 0 [Value.num 1, Value.num 2] rfl rfl
  exact ⟨h.1.trans rfl, h.2 []⟩

/-- C10.  Executing a literal-push cell reverses the stored list in place:
the Code Space cell is changed (for a list that is not its own reverse),
and executing the same cell a second time pushes the literals in the
opposite order (the original list), restoring the cell.  The part_000
`runitl` loop body mutates the cell identically. -/
theorem literal_cell_mutation (st : VM) (ip : Nat) (vs : List Value)
    (hi : st.i = some ip) (hx : st.x[ip]? = some (Cell.lits vs))
    (hrev : vs.reverse ≠ vs) :
    popLiterals st =
      some { st with s := st.s ++ vs.reverse,
                     x := st.x.set ip (Cell.lits vs.reverse),
                     i := some (ip + 1) } ∧
    (st.x.set ip (Cell.lits vs.reverse))[ip]? ≠ st.x[ip]? ∧
    popLiterals { st with s := st.s ++ vs.reverse,
                          x := st.x.set ip (Cell.lits vs.reverse),
                          i := some ip } =
      some { st with s := (st.s ++ vs.reverse) ++ vs,
                     x := (st.x.set ip (Cell.lits vs.reverse)).set ip
                            (Cell.lits vs),
                     i := some (ip + 1) } ∧
    stepCell (Cell.lits vs) ip st =
      some { st with s := st.s ++ vs.reverse,
                     x := st.x.set ip (Cell.lits vs.reverse),
                     i := some (ip + 1) } := by
  have hlt : ip < st.x.length := (List.getElem?_eq_some.mp hx).1
  have hset : (st.x.set ip (Cell.lits vs.reverse))[ip]? =
      some (Cell.lits vs.reverse) :=
    List.getElem?_set_eq_of_lt _ hlt
  refine ⟨?_, ?_, ?_, rfl⟩
  · simp [popLiterals, hi, hx]
  · rw [hset, hx]
    intro h
    simp only [Option.some.injEq, Cell.lits.injEq] at h
    exact hrev h
  · simp [popLiterals, hset]

/-- Witness for `literal_cell_mutation` on the cell `(1, 2)`. -/
theorem literal_cell_mutation_witness :
    popLiterals
        ⟨[], [], [Cell.lits [Value.num 1, Value.num 2]], some 0, [], none,
          false⟩ =
      some ⟨[Value.num 2, Value.num 1],
        [], [Cell.lits [Value.num 2, Value.num 1]], some 1, [], none,
        false⟩ := by
  have h := literal_cell_mutation
    ⟨[], [], [Cell.lits [Value.num 1, Value.num 2]], some 0, [], none,
      false⟩ 0 [Value.num 1, Value.num 2] rfl rfl
    (by
      intro h
      simp only [List.reverse_cons, List.reverse_nil, List.nil_append,
        List.cons_append, List.cons.injEq, Value.num.injEq] at h
      exact absurd h.1 (by decide))
  exact h.1.trans rfl

/-! ### Word registration -/

/-- C6 counterexample.  Registering a word under the *empty* string (not
previously registered) succeeds: `typeof "" === 'string'`, so
`staticDefine`'s string check passes, `Object.defineProperty` installs
the fresh property, and the dictionary entry is added — the claim
predicted an `InvalidWordName` failure. -/
theorem define_empty_name_accepted :
    defineName (Value.str "") ⟨WordFn.constant Value.null, false⟩
        ⟨[], [], [], none, [], none, false⟩ =
      Except.ok
        ⟨[], [], [], none,
          [("", ⟨WordFn.constant Value.null, false⟩)], some "", false⟩ ∧
    defineName (Value.str "") ⟨WordFn.constant Value.null, false⟩
        ⟨[], [], [], none, [], none, false⟩ ≠
      Except.error VMError.invalidWordName := by
  refine ⟨rfl, fun h => ?_⟩
  rw [show defineName (Value.str "") ⟨WordFn.constant Value.null, false⟩
      ⟨[], [], [], none, [], none, false⟩ =
    Except.ok
      ⟨[], [], [], none,
        [("", ⟨WordFn.constant Value.null, false⟩)], some "", false⟩
    from rfl] at h
  exact Except.noConfusion h

/-- C6, amended.  Registration fails with `InvalidWordName` exactly for
non-string names (the part_000/part_001 check only tests
`typeof k !== 'string'`; the e.js variant does not check at all); a
string name not yet registered — the empty string included — succeeds and
adds the entry; registering a string name that already has a word
property fails (`Object.defineProperty` throws on the non-configurable
property) and adds no entry. -/
theorem define_name_validation (k : Value) (e : Entry) (st : VM) :
    (∀ n : String, k = Value.str n → dlookup n st.dict = none →
      defineName k e st =
        Except.ok { st with dict := (n, e) :: st.dict,
                            lastDefined := some n }) ∧
    (∀ n : String, k = Value.str n → (dlookup n st.dict).isSome = true →
      defineName k e st = Except.error VMError.redefinedWord) ∧
    ((∀ n : String, k ≠ Value.str n) →
      defineName k e st = Except.error VMError.invalidWordName) := by
  refine ⟨?_, ?_, ?_⟩
  · rintro n rfl hfresh
    simp [defineName, hfresh]
  · rintro n rfl hdup
    obtain ⟨e', he'⟩ := Option.isSome_iff_exists.mp hdup
    simp [defineName, he']
  · intro h
    cases k with
    | str n => exact absurd rfl (h n)
    | num m => rfl
    | bool b => rfl
    | null => rfl
    | undef => rfl
    | arr l => rfl

/-- Witness for `define_name_validation`: the empty string is accepted
when fresh, a numeric name is rejected, and re-registering an existing
name is rejected. -/
theorem define_name_validation_witness :
    defineName (Value.str "") ⟨WordFn.exitP, false⟩
        ⟨[], [], [], none, [], none, true⟩ =
      Except.ok
        ⟨[], [], [], none, [("", ⟨WordFn.exitP, false⟩)], some "", true⟩ ∧
    defineName (Value.num 3) ⟨WordFn.exitP, false⟩
        ⟨[], [], [], none, [], none, true⟩ =
      Except.error VMError.invalidWordName ∧
    defineName (Value.str "dup") ⟨WordFn.exitP, false⟩
        ⟨[], [], [], none, [("dup", ⟨WordFn.colon 0, false⟩)], none,
          true⟩ =
      Except.error VMError.redefinedWord := by
  refine ⟨?_, ?_, ?_⟩
  · exact ((define_name_validation (Value.str "") ⟨WordFn.exitP, false⟩
      ⟨[], [], [], none, [], none, true⟩).1 "" rfl rfl).trans rfl
  · exact (define_name_validation (Value.num 3) ⟨WordFn.exitP, false⟩
      ⟨[], [], [], none, [], none, true⟩).2.2
      (fun n h => Value.noConfusion h)
  · exact (define_name_validation (Value.str "dup") ⟨WordFn.exitP, false⟩
      ⟨[], [], [], none, [("dup", ⟨WordFn.colon 0, false⟩)], none,
        true⟩).2.1 "dup" rfl rfl

/-! ### Immediate words and the compile/execute dispatch -/

/-- C3.  While `vm.compiling` is truthy: referencing an immediate word
executes its behaviour at that moment and the getter appends nothing (for
a native immediate word the whole of Code Space is left unchanged, so the
compiled body cannot re-run it later); referencing a non-immediate word
appends exactly one call cell and executes nothing — the stack, the
dictionary and everything else are untouched. -/
theorem immediate_dispatch (fuel : Nat) (k : String) (st : VM) (e : Entry)
    (hl : dlookup k st.dict = some e) (hc : st.compiling = true) :
    (e.imm = true → referenceWord fuel k st = execFn fuel e.fn st) ∧
    (e.imm = false →
      referenceWord fuel k st =
        some { st with x := st.x ++ [cellOf e.fn] }) ∧
    (∀ A f, e.imm = true → e.fn = WordFn.native A f →
      (referenceWord fuel k st).map VM.x = some st.x) := by
  refine ⟨fun him => ?_, fun him => ?_, fun A f him hfn => ?_⟩
  · simp [referenceWord, hl, hc, him]
  · simp [referenceWord, hl, hc, him]
  · simp [referenceWord, hl, hc, him, hfn, execFn, runNative]

/-- Witness for `immediate_dispatch`: an immediate word runs now and
leaves Code Space alone; a non-immediate word is compiled, not run. -/
theorem immediate_dispatch_witness :
    referenceWord 0 "hi"
        ⟨[], [], [], none,
          [("hi", ⟨WordFn.native 0 (fun _ => Value.str "hi!"), true⟩),
           ("add", ⟨WordFn.native 2 addF, false⟩)], none, true⟩ =
      some
        ⟨[Value.str "hi!"], [], [], none,
          [("hi", ⟨WordFn.native 0 (fun _ => Value.str "hi!"), true⟩),
           ("add", ⟨WordFn.native 2 addF, false⟩)], none, true⟩ ∧
    referenceWord 0 "add"
        ⟨[], [], [], none,
          [("hi", ⟨WordFn.native 0 (fun _ => Value.str "hi!"), true⟩),
           ("add", ⟨WordFn.native 2 addF, false⟩)], none, true⟩ =
      some
        ⟨[], [], [Cell.native 2 addF], none,
          [("hi", ⟨WordFn.native 0 (fun _ => Value.str "hi!"), true⟩),
           ("add", ⟨WordFn.native 2 addF, false⟩)], none, true⟩ := by
  constructor
  · exact ((immediate_dispatch 0 "hi"
      ⟨[], [], [], none,
        [("hi", ⟨WordFn.native 0 (fun _ => Value.str "hi!"), true⟩),
         ("add", ⟨WordFn.native 2 addF, false⟩)], none, true⟩
      ⟨WordFn.native 0 (fun _ => Value.str "hi!"), true⟩ rfl rfl).1
      rfl).trans rfl
  · exact ((immediate_dispatch 0 "add"
      ⟨[], [], [], none,
        [("hi", ⟨WordFn.native 0 (fun _ => Value.str "hi!"), true⟩),
         ("add", ⟨WordFn.native 2 addF, false⟩)], none, true⟩
      ⟨WordFn.native 2 addF, false⟩ rfl rfl).2.1 rfl).trans rfl

/-! ### Return-stack discipline -/

/-- `createOp` only touches the stack, the dictionary and the `vm.cfa`
target. -/
theorem createOp_parts {st st' : VM} (h : createOp st = some st') :
    st'.r = st.r ∧ st'.i = st.i ∧ st'.x = st.x := by
  unfold createOp at h
  split at h
  · injection h with h'
    subst h'
    exact ⟨rfl, rfl, rfl⟩
  · exact Option.noConfusion h

/-- `loadOp` only touches the stack. -/
theorem loadOp_parts {st st' : VM} (h : loadOp st = some st') :
    st'.r = st.r ∧ st'.i = st.i ∧ st'.x = st.x := by
  unfold loadOp at h
  split at h <;>
    first
      | (split at h <;>
          first
            | (split at h <;>
                first
                  | (injection h with h'; subst h'; exact ⟨rfl, rfl, rfl⟩)
                  | exact Option.noConfusion h)
            | (injection h with h'; subst h'; exact ⟨rfl, rfl, rfl⟩))
      | (injection h with h'; subst h'; exact ⟨rfl, rfl, rfl⟩)

/-- `doesSetOp` only touches the dictionary. -/
theorem doesSetOp_parts {b : Nat} {st st' : VM}
    (h : doesSetOp b st = some st') :
    st'.r = st.r ∧ st'.i = st.i ∧ st'.x = st.x ∧ st'.s = st.s := by
  unfold doesSetOp at h
  split at h
  · split at h
    · split at h
      · injection h with h'
        subst h'
        exact ⟨rfl, rfl, rfl, rfl⟩
      all_goals exact Option.noConfusion h
    · exact Option.noConfusion h
  · exact Option.noConfusion h

/-- Shape of a single interpreter step: it either advances to `ip + 1`
leaving the return stack alone, enters a call pushing exactly one saved
pointer, or exits popping exactly one. -/
theorem stepCell_shape (c : Cell) (ip : Nat) (st st₁ : VM)
    (h : stepCell c ip st = some st₁) :
    (st₁.i = some (ip + 1) ∧ st₁.r = st.r) ∨
    (∃ b, st₁.i = some b ∧ st₁.r = some (ip + 1) :: st.r) ∨
    (st.r = [] ∧ st₁.i = none ∧ st₁.r = []) ∨
    (∃ v rest, st.r = v :: rest ∧ st₁.i = v ∧ st₁.r = rest) := by
  cases c with
  | native A f =>
      simp only [stepCell, runNative] at h
      injection h with h'
      subst h'
      exact Or.inl ⟨rfl, rfl⟩
  | lits vs =>
      injection h with h'
      subst h'
      exact Or.inl ⟨rfl, rfl⟩
  | call b =>
      injection h with h'
      subst h'
      exact Or.inr (Or.inl ⟨b, rfl, rfl⟩)
  | callDoes l b =>
      injection h with h'
      subst h'
      exact Or.inr (Or.inl ⟨b, rfl, rfl⟩)
  | doesSet b =>
      simp only [stepCell] at h
      cases hop : doesSetOp b st with
      | none => rw [hop] at h; exact Option.noConfusion h
      | some st₂ =>
          rw [hop] at h
          injection h with h'
          subst h'
          exact Or.inl ⟨rfl, (doesSetOp_parts hop).1⟩
  | storeC =>
      injection h with h'
      subst h'
      exact Or.inl ⟨rfl, rfl⟩
  | loadC =>
      simp only [stepCell] at h
      cases hop : loadOp st with
      | none => rw [hop] at h; exact Option.noConfusion h
      | some st₂ =>
          rw [hop] at h
          injection h with h'
          subst h'
          exact Or.inl ⟨rfl, (loadOp_parts hop).1⟩
  | createC =>
      simp only [stepCell] at h
      cases hop : createOp st with
      | none => rw [hop] at h; exact Option.noConfusion h
      | some st₂ =>
          rw [hop] at h
          injection h with h'
          subst h'
          exact Or.inl ⟨rfl, (createOp_parts hop).1⟩
  | exitc =>
      cases hr : st.r with
      | nil =>
          simp only [stepCell, exitOp, hr] at h
          injection h with h'
          subst h'
          exact Or.inr (Or.inr (Or.inl ⟨rfl, rfl, rfl⟩))
      | cons v rest =>
          simp only [stepCell, exitOp, hr] at h
          injection h with h'
          subst h'
          exact Or.inr (Or.inr (Or.inr ⟨v, rest, rfl, rfl, rfl⟩))
  | data v => exact Option.noConfusion h

/-- The return-stack well-formedness invariant of an outermost `runitl`
run: every saved pointer except the bottom-most one is defined (only
the outermost push can save `undefined`). -/
def goodR : List (Option Nat) → Prop
  | [] => True
  | [_] => True
  | a :: b :: t => a ≠ none ∧ goodR (b :: t)

theorem goodR_cons (v : Nat) (r : List (Option Nat)) (h : goodR r) :
    goodR (some v :: r) := by
  cases r with
  | nil => trivial
  | cons b t => exact ⟨fun hc => Option.noConfusion hc, h⟩

theorem goodR_tail (a : Option Nat) (r : List (Option Nat))
    (h : goodR (a :: r)) : goodR r := by
  cases r with
  | nil => trivial
  | cons b t => exact h.2

/-- A halted machine stays halted. -/
theorem runLoop_done (n : Nat) (st : VM) (h : st.i = none) :
    runLoop n st = some st := by
  cases n <;> simp [runLoop, h]

/-- Any complete, non-erroring run of the interpreter loop whose return
stack satisfies `goodR` ends with the return stack empty: the final
`exit` pops the bottom-most saved pointer. -/
theorem runLoop_balance (n : Nat) :
    ∀ (st st' : VM) (ip : Nat), st.i = some ip → goodR st.r →
      runLoop n st = some st' → st'.r = [] ∧ st'.i = none := by
  induction n with
  | zero =>
      intro st st' ip hi hg h
      simp [runLoop, hi] at h
  | succ n ih =>
      intro st st' ip hi hg h
      simp only [runLoop, hi] at h
      cases hx : st.x[ip]? with
      | none => rw [hx] at h; exact Option.noConfusion h
      | some c =>
          rw [hx] at h
          obtain ⟨st₁, hstep, hrest⟩ := Option.bind_eq_some.mp h
          rcases stepCell_shape c ip st st₁ hstep with
            ⟨hi₁, hr₁⟩ | ⟨b, hi₁, hr₁⟩ | ⟨hre, hi₁, hr₁⟩ |
            ⟨v, rest, hre, hi₁, hr₁⟩
          · exact ih st₁ st' (ip + 1) hi₁ (hr₁ ▸ hg) hrest
          · exact ih st₁ st' b hi₁ (hr₁ ▸ goodR_cons (ip + 1) st.r hg) hrest
          · rw [runLoop_done n st₁ hi₁] at hrest
            injection hrest with h'
            subst h'
            exact ⟨hr₁, hi₁⟩
          · cases v with
            | none =>
                have hrest0 : rest = [] := by
                  rw [hre] at hg
                  cases rest with
                  | nil => rfl
                  | cons b t => exact absurd rfl hg.1
                subst hrest0
                rw [runLoop_done n st₁ hi₁] at hrest
                injection hrest with h'
                subst h'
                exact ⟨hr₁, hi₁⟩
            | some k =>
                exact ih st₁ st' k hi₁
                  (by rw [hr₁]; exact goodR_tail _ _ (hre ▸ hg)) hrest

/-- C8.  For a well-formed (non-erroring, completing) outermost execution
the Return Stack depth at the end equals its depth before the run began
(both zero: the final `exit` pops the saved `undefined` the outermost
`runitl` pushed), and each single step changes the depth by exactly `+1`
on entering a nested call, exactly `-1` on `exit`, and `0` otherwise. -/
theorem return_stack_balance (fuel b : Nat) (st st' : VM)
    (hr : st.r = []) (h : runitl fuel b st = some st') :
    st'.r = [] ∧ st'.i = none ∧
    (∀ (c : Cell) (ip : Nat) (st₁ st₂ : VM),
      stepCell c ip st₁ = some st₂ →
      ((∃ t, c = Cell.call t) ∨ (∃ l t, c = Cell.callDoes l t) →
        st₂.r.length = st₁.r.length + 1) ∧
      (c = Cell.exitc → st₂.r.length = st₁.r.length - 1) ∧
      ((∀ t, c ≠ Cell.call t) → (∀ l t, c ≠ Cell.callDoes l t) →
        c ≠ Cell.exitc → st₂.r.length = st₁.r.length)) := by
  unfold runitl at h
  rw [hr] at h
  simp only [if_pos rfl] at h
  have hbal := runLoop_balance fuel _ st' b rfl (by trivial) h
  refine ⟨hbal.1, hbal.2, ?_⟩
  intro c ip st₁ st₂ hstep
  refine ⟨?_, ?_, ?_⟩
  · rintro (⟨t, rfl⟩ | ⟨l, t, rfl⟩) <;>
      (injection hstep with h'; subst h'; simp)
  · rintro rfl
    cases hr₁ : st₁.r with
    | nil =>
        simp only [stepCell, exitOp, hr₁] at hstep
        injection hstep with h'
        subst h'
        simp [hr₁]
    | cons v rest =>
        simp only [stepCell, exitOp, hr₁] at hstep
        injection hstep with h'
        subst h'
        simp [hr₁]
  · intro hnc hncd hne
    cases c with
    | call t => exact absurd rfl (hnc t)
    | callDoes l t => exact absurd rfl (hncd l t)
    | exitc => exact absurd rfl hne
    | data v => exact Option.noConfusion hstep
    | native A f =>
        simp only [stepCell, runNative] at hstep
        injection hstep with h'
        subst h'
        rfl
    | lits vs =>
        injection hstep with h'
        subst h'
        rfl
    | storeC =>
        injection hstep with h'
        subst h'
        rfl
    | doesSet bb' =>
        simp only [stepCell] at hstep
        cases hop : doesSetOp bb' st₁ with
        | none => rw [hop] at hstep; exact Option.noConfusion hstep
        | some st₃ =>
            rw [hop] at hstep
            injection hstep with h'
            subst h'
            simp [(doesSetOp_parts hop).1]
    | loadC =>
        simp only [stepCell] at hstep
        cases hop : loadOp st₁ with
        | none => rw [hop] at hstep; exact Option.noConfusion hstep
        | some st₃ =>
            rw [hop] at hstep
            injection hstep with h'
            subst h'
            simp [(loadOp_parts hop).1]
    | createC =>
        simp only [stepCell] at hstep
        cases hop : createOp st₁ with
        | none => rw [hop] at hstep; exact Option.noConfusion hstep
        | some st₃ =>
            rw [hop] at hstep
            injection hstep with h'
            subst h'
            simp [(createOp_parts hop).1]

/-- Witness for `return_stack_balance`: a colon word calling a nested word
that immediately exits; the outermost run ends with `vm.r` empty and
`vm.i` undefined. -/
theorem return_stack_balance_witness :
    (runitl 4 0
        (⟨[], [], [Cell.call 2, Cell.exitc, Cell.lits [], Cell.exitc],
          none, [], none, false⟩ : VM)).map VM.r = some [] ∧
    (runitl 4 0
        (⟨[], [], [Cell.call 2, Cell.exitc, Cell.lits [], Cell.exitc],
          none, [], none, false⟩ : VM)).map VM.i = some none := by
  have h := return_stack_balance 4 0
    (⟨[], [], [Cell.call 2, Cell.exitc, Cell.lits [], Cell.exitc],
      none, [], none, false⟩ : VM)
    (⟨[], [], [Cell.call 2, Cell.exitc, Cell.lits [], Cell.exitc],
      none, [], none, false⟩ : VM) rfl rfl
  constructor
  · rw [show runitl 4 0
        (⟨[], [], [Cell.call 2, Cell.exitc, Cell.lits [], Cell.exitc],
          none, [], none, false⟩ : VM) =
      some (⟨[], [], [Cell.call 2, Cell.exitc, Cell.lits [], Cell.exitc],
          none, [], none, false⟩ : VM) from rfl]
    exact congrArg some h.1
  · rw [show runitl 4 0
        (⟨[], [], [Cell.call 2, Cell.exitc, Cell.lits [], Cell.exitc],
          none, [], none, false⟩ : VM) =
      some (⟨[], [], [Cell.call 2, Cell.exitc, Cell.lits [], Cell.exitc],
          none, [], none, false⟩ : VM) from rfl]
    exact congrArg some h.2.1

/-! ### CREATE/DOES> -/

/-- `create` on a stack ending in a value and a string name. -/
theorem createOp_concat (st : VM) (base : List Value) (v : Value)
    (n : String) (hs : st.s = base ++ [v, Value.str n]) :
    createOp st =
      some { st with
        s := base ++ [v],
        dict := (n, ⟨WordFn.constant (Value.num st.x.length), false⟩)
                  :: st.dict,
        lastDefined := some n } := by
  have hs1 : st.s = (base ++ [v]) ++ [Value.str n] := by
    rw [hs]
    exact (List.append_assoc base [v] [Value.str n]).symm
  simp only [createOp, hs1, List.getLast?_concat, List.dropLast_concat]

/-- `store` on a stack ending in a value. -/
theorem storeOp_concat (st : VM) (base : List Value) (v : Value)
    (hs : st.s = base ++ [v]) :
    storeOp st = { st with s := base, x := st.x ++ [encodeCell v] } := by
  simp only [storeOp, hs, jsSpliceTail_concat, List.headD_cons]

/-- `_does_setcfa` when the factory's `create` just pushed the entry for
`n` on top of the dictionary. -/
theorem doesSetOp_top (b : Nat) (st : VM) (n : String) (v : Value)
    (d : List (String × Entry)) (imm : Bool)
    (hld : st.lastDefined = some n)
    (hd : st.dict = (n, ⟨WordFn.constant v, imm⟩) :: d) :
    doesSetOp b st =
      some { st with dict := (n, ⟨WordFn.doesBound v b, imm⟩) :: d } := by
  simp only [doesSetOp, hld, hd, dlookup, if_pos, dsetFn]

/-- Unfolding one interpreter iteration. -/
theorem runLoop_step (n : Nat) (st : VM) (ip : Nat) (c : Cell)
    (hi : st.i = some ip) (hc : st.x[ip]? = some c) :
    runLoop (n + 1) st = (stepCell c ip st).bind (runLoop n) := by
  simp only [runLoop, hi, hc]

/-- Invoking a factory word whose body is `create`, `store`,
`_does_setcfa`, `exit` (the compiled form of `... .create .store .does`)
with a data value and a name on the stack: it pops both, registers the
name over a fresh private data cell appended to Code Space, and binds the
new word to the shared behaviour `b` recorded by `does`. -/
theorem factory_run (m p b : Nat) (st : VM) (base : List Value) (v : Value)
    (n : String)
    (hx0 : st.x[p]? = some Cell.createC)
    (hx1 : st.x[p + 1]? = some Cell.storeC)
    (hx2 : st.x[p + 2]? = some (Cell.doesSet b))
    (hx3 : st.x[p + 3]? = some Cell.exitc)
    (hs : st.s = base ++ [v, Value.str n])
    (hr : st.r = []) (hi : st.i = none) :
    execFn (m + 4) (WordFn.colon p) st =
      some { st with
        s := base, r := [], x := st.x ++ [encodeCell v], i := none,
        dict := (n, ⟨WordFn.doesBound (Value.num st.x.length) b, false⟩)
                  :: st.dict,
        lastDefined := some n } := by
  have hlen2 : p + 2 < st.x.length := (List.getElem?_eq_some.mp hx2).1
  have hlen3 : p + 3 < st.x.length := (List.getElem?_eq_some.mp hx3).1
  have e1 : execFn (m + 4) (WordFn.colon p) st =
      runLoop (m + 4) { st with r := [none], i := some p } := by
    simp [execFn, runitl, hr, hi]
  rw [e1]
  rw [show m + 4 = m + 3 + 1 from rfl]
  rw [runLoop_step (m + 3) { st with r := [none], i := some p } p
    Cell.createC rfl hx0]
  rw [show stepCell Cell.createC p { st with r := [none], i := some p } =
      some { st with
        s := base ++ [v],
        dict := (n, ⟨WordFn.constant (Value.num st.x.length), false⟩)
                  :: st.dict,
        lastDefined := some n,
        r := [none], i := some (p + 1) } from by
    simp only [stepCell,
      createOp_concat { st with r := [none], i := some p } base v n hs,
      Option.map_some']]
  rw [Option.some_bind]
  rw [show m + 3 = m + 2 + 1 from rfl]
  rw [runLoop_step (m + 2)
    { st with
      s := base ++ [v],
      dict := (n, ⟨WordFn.constant (Value.num st.x.length), false⟩)
                :: st.dict,
      lastDefined := some n,
      r := [none], i := some (p + 1) } (p + 1) Cell.storeC rfl hx1]
  rw [show stepCell Cell.storeC (p + 1)
      { st with
        s := base ++ [v],
        dict := (n, ⟨WordFn.constant (Value.num st.x.length), false⟩)
                  :: st.dict,
        lastDefined := some n,
        r := [none], i := some (p + 1) } =
      some { st with
        s := base, x := st.x ++ [encodeCell v],
        dict := (n, ⟨WordFn.constant (Value.num st.x.length), false⟩)
                  :: st.dict,
        lastDefined := some n,
        r := [none], i := some (p + 2) } from by
    simp only [stepCell, storeOp_concat
      { st with
        s := base ++ [v],
        dict := (n, ⟨WordFn.constant (Value.num st.x.length), false⟩)
                  :: st.dict,
        lastDefined := some n,
        r := [none], i := some (p + 1) } base v rfl]]
  rw [Option.some_bind]
  rw [show m + 2 = m + 1 + 1 from rfl]
  rw [runLoop_step (m + 1)
    { st with
      s := base, x := st.x ++ [encodeCell v],
      dict := (n, ⟨WordFn.constant (Value.num st.x.length), false⟩)
                :: st.dict,
      lastDefined := some n,
      r := [none], i := some (p + 2) } (p + 2) (Cell.doesSet b) rfl
    (by rw [List.getElem?_append_left hlen2]; exact hx2)]
  rw [show stepCell (Cell.doesSet b) (p + 2)
      { st with
        s := base, x := st.x ++ [encodeCell v],
        dict := (n, ⟨WordFn.constant (Value.num st.x.length), false⟩)
                  :: st.dict,
        lastDefined := some n,
        r := [none], i := some (p + 2) } =
      some { st with
        s := base, x := st.x ++ [encodeCell v],
        dict := (n, ⟨WordFn.doesBound (Value.num st.x.length) b, false⟩)
                  :: st.dict,
        lastDefined := some n,
        r := [none], i := some (p + 3) } from by
    simp only [stepCell,
      doesSetOp_top b
        { st with
          s := base, x := st.x ++ [encodeCell v],
          dict := (n, ⟨WordFn.constant (Value.num st.x.length), false⟩)
                    :: st.dict,
          lastDefined := some n,
          r := [none], i := some (p + 2) }
        n (Value.num st.x.length) st.dict false rfl rfl,
      Option.map_some']]
  rw [Option.some_bind]
  rw [runLoop_step m
    { st with
      s := base, x := st.x ++ [encodeCell v],
      dict := (n, ⟨WordFn.doesBound (Value.num st.x.length) b, false⟩)
                :: st.dict,
      lastDefined := some n,
      r := [none], i := some (p + 3) } (p + 3) Cell.exitc rfl
    (by rw [List.getElem?_append_left hlen3]; exact hx3)]
  rw [show stepCell Cell.exitc (p + 3)
      { st with
        s := base, x := st.x ++ [encodeCell v],
        dict := (n, ⟨WordFn.doesBound (Value.num st.x.length) b, false⟩)
                  :: st.dict,
        lastDefined := some n,
        r := [none], i := some (p + 3) } =
      some { st with
        s := base, x := st.x ++ [encodeCell v],
        dict := (n, ⟨WordFn.doesBound (Value.num st.x.length) b, false⟩)
                  :: st.dict,
        lastDefined := some n,
        r := [], i := none } from rfl]
  rw [Option.some_bind]
  exact runLoop_done m _ rfl

/-- A single interpreter step never changes a plain data cell: the only
cells a step writes are the literal cell being executed (reversed in
place) and fresh cells appended by `store`. -/
theorem stepCell_preserves_data (c : Cell) (ip : Nat) (st st₁ : VM)
    (hc : st.x[ip]? = some c) (h : stepCell c ip st = some st₁)
    (j : Nat) (w : Value) (hj : st.x[j]? = some (Cell.data w)) :
    st₁.x[j]? = some (Cell.data w) := by
  have happ : ∀ l₂ : List Cell, (st.x ++ l₂)[j]? = some (Cell.data w) := by
    intro l₂
    have hlt : j < st.x.length := (List.getElem?_eq_some.mp hj).1
    rw [List.getElem?_append_left hlt]
    exact hj
  cases c with
  | native A f =>
      simp only [stepCell, runNative] at h
      injection h with h'
      subst h'
      exact hj
  | lits vs =>
      injection h with h'
      subst h'
      have hne : ip ≠ j := by
        intro he
        subst he
        rw [hc] at hj
        injection hj with h2
        exact Cell.noConfusion h2
      rw [List.getElem?_set_ne hne]
      exact hj
  | call t =>
      injection h with h'
      subst h'
      exact hj
  | callDoes l t =>
      injection h with h'
      subst h'
      exact hj
  | doesSet t =>
      simp only [stepCell] at h
      cases hop : doesSetOp t st with
      | none => rw [hop] at h; exact Option.noConfusion h
      | some st₂ =>
          rw [hop] at h
          injection h with h'
          subst h'
          show st₂.x[j]? = some (Cell.data w)
          rw [(doesSetOp_parts hop).2.2.1]
          exact hj
  | storeC =>
      injection h with h'
      subst h'
      exact happ _
  | loadC =>
      simp only [stepCell] at h
      cases hop : loadOp st with
      | none => rw [hop] at h; exact Option.noConfusion h
      | some st₂ =>
          rw [hop] at h
          injection h with h'
          subst h'
          show st₂.x[j]? = some (Cell.data w)
          rw [(loadOp_parts hop).2.2]
          exact hj
  | createC =>
      simp only [stepCell] at h
      cases hop : createOp st with
      | none => rw [hop] at h; exact Option.noConfusion h
      | some st₂ =>
          rw [hop] at h
          injection h with h'
          subst h'
          show st₂.x[j]? = some (Cell.data w)
          rw [(createOp_parts hop).2.2]
          exact hj
  | exitc =>
      cases hr : st.r with
      | nil =>
          simp only [stepCell, exitOp, hr] at h
          injection h with h'
          subst h'
          exact hj
      | cons u rest =>
          simp only [stepCell, exitOp, hr] at h
          injection h with h'
          subst h'
          exact hj
  | data u => exact Option.noConfusion h

/-- A complete non-erroring loop run preserves every plain data cell. -/
theorem runLoop_preserves_data (n : Nat) :
    ∀ (st st' : VM) (j : Nat) (w : Value),
      st.x[j]? = some (Cell.data w) → runLoop n st = some st' →
      st'.x[j]? = some (Cell.data w) := by
  induction n with
  | zero =>
      intro st st' j w hj h
      cases hi : st.i with
      | none =>
          simp only [runLoop, hi] at h
          injection h with h'
          subst h'
          exact hj
      | some ip => simp [runLoop, hi] at h
  | succ n ih =>
      intro st st' j w hj h
      cases hi : st.i with
      | none =>
          simp only [runLoop, hi] at h
          injection h with h'
          subst h'
          exact hj
      | some ip =>
          simp only [runLoop, hi] at h
          cases hx : st.x[ip]? with
          | none => rw [hx] at h; exact Option.noConfusion h
          | some c =>
              rw [hx] at h
              obtain ⟨st₁, hstep, hrest⟩ := Option.bind_eq_some.mp h
              exact ih st₁ st' j w
                (stepCell_preserves_data c ip st st₁ hx hstep j w hj) hrest

/-- Invoking any word through the getter preserves every plain data
cell. -/
theorem execFn_preserves_data (fuel : Nat) (fn : WordFn) (st st' : VM)
    (j : Nat) (w : Value) (hj : st.x[j]? = some (Cell.data w))
    (h : execFn fuel fn st = some st') :
    st'.x[j]? = some (Cell.data w) := by
  have happ : ∀ l₂ : List Cell, (st.x ++ l₂)[j]? = some (Cell.data w) := by
    intro l₂
    have hlt : j < st.x.length := (List.getElem?_eq_some.mp hj).1
    rw [List.getElem?_append_left hlt]
    exact hj
  cases fn with
  | constant v =>
      injection h with h'
      subst h'
      exact hj
  | native A f =>
      simp only [execFn, runNative] at h
      injection h with h'
      subst h'
      exact hj
  | colon b =>
      simp only [execFn, runitl] at h
      split at h
      · exact runLoop_preserves_data fuel
          { st with r := st.i :: st.r, i := some b } st' j w hj h
      · injection h with h'
        subst h'
        exact hj
  | doesBound link b =>
      simp only [execFn, runitl] at h
      split at h
      · exact runLoop_preserves_data fuel
          { st with s := st.s ++ pushResult link,
                    r := st.i :: st.r, i := some b } st' j w hj h
      · injection h with h'
        subst h'
        exact hj
  | storeP =>
      injection h with h'
      subst h'
      exact happ _
  | loadP =>
      rw [(loadOp_parts h).2.2]
      exact hj
  | createP =>
      rw [(createOp_parts h).2.2]
      exact hj
  | exitP =>
      injection h with h'
      subst h'
      cases hr : st.r with
      | nil => simp only [exitOp, hr]; exact hj
      | cons u rest => simp only [exitOp, hr]; exact hj

/-- C2.  For words created through a `create`/`does` factory (body
`create`, `store`, `_does_setcfa`, `exit`, shared behaviour at `b`):
(a) running the factory on a value `v` and a name `n` registers `n` over
its own fresh private data cell (at address `st.x.length`, holding `v`)
bound to the shared behaviour `b`;
(b) invoking any created word first pushes its own data-cell link, then
runs the shared behaviour;
(c) creating a second word `n₂` through the same factory leaves the first
word's entry and its data cell untouched, and binds `n₂` to its own fresh
cell and the *same* shared behaviour `b`;
(d) invoking any word never changes another word's stored data cell. -/
theorem create_does_protocol (m p b : Nat) (st : VM)
    (base base₂ : List Value) (v v₂ : Value) (n n₂ : String)
    (hx0 : st.x[p]? = some Cell.createC)
    (hx1 : st.x[p + 1]? = some Cell.storeC)
    (hx2 : st.x[p + 2]? = some (Cell.doesSet b))
    (hx3 : st.x[p + 3]? = some Cell.exitc)
    (hs : st.s = base ++ [v, Value.str n])
    (hr : st.r = []) (hi : st.i = none) (hne : n₂ ≠ n) :
    execFn (m + 4) (WordFn.colon p) st =
      some { st with
        s := base, r := [], x := st.x ++ [encodeCell v], i := none,
        dict := (n, ⟨WordFn.doesBound (Value.num st.x.length) b, false⟩)
                  :: st.dict,
        lastDefined := some n } ∧
    (∀ (fuel : Nat) (link : Value) (bb : Nat) (st' : VM),
      execFn fuel (WordFn.doesBound link bb) st' =
        runitl fuel bb { st' with s := st'.s ++ pushResult link }) ∧
    (execFn (m + 4) (WordFn.colon p)
        { st with
          s := base₂ ++ [v₂, Value.str n₂], r := [],
          x := st.x ++ [encodeCell v], i := none,
          dict := (n, ⟨WordFn.doesBound (Value.num st.x.length) b, false⟩)
                    :: st.dict,
          lastDefined := some n } =
      some { st with
        s := base₂, r := [],
        x := (st.x ++ [encodeCell v]) ++ [encodeCell v₂], i := none,
        dict :=
          (n₂, ⟨WordFn.doesBound
            (Value.num (st.x ++ [encodeCell v]).length) b, false⟩)
          :: (n, ⟨WordFn.doesBound (Value.num st.x.length) b, false⟩)
          :: st.dict,
        lastDefined := some n₂ } ∧
     dlookup n
        ((n₂, ⟨WordFn.doesBound
            (Value.num (st.x ++ [encodeCell v]).length) b, false⟩)
          :: (n, ⟨WordFn.doesBound (Value.num st.x.length) b, false⟩)
          :: st.dict) =
        some ⟨WordFn.doesBound (Value.num st.x.length) b, false⟩ ∧
     ((st.x ++ [encodeCell v]) ++ [encodeCell v₂])[st.x.length]? =
        some (encodeCell v)) ∧
    (∀ (fuel : Nat) (fn : WordFn) (st₁ st₂ : VM) (j : Nat) (w : Value),
      st₁.x[j]? = some (Cell.data w) → execFn fuel fn st₁ = some st₂ →
      st₂.x[j]? = some (Cell.data w)) := by
  have hp0 : p < st.x.length := (List.getElem?_eq_some.mp hx0).1
  have hp1 : p + 1 < st.x.length := (List.getElem?_eq_some.mp hx1).1
  have hp2 : p + 2 < st.x.length := (List.getElem?_eq_some.mp hx2).1
  have hp3 : p + 3 < st.x.length := (List.getElem?_eq_some.mp hx3).1
  refine ⟨factory_run m p b st base v n hx0 hx1 hx2 hx3 hs hr hi,
    fun fuel link bb st' => rfl, ⟨?_, ?_, ?_⟩,
    fun fuel fn st₁ st₂ j w hj h =>
      execFn_preserves_data fuel fn st₁ st₂ j w hj h⟩
  · exact factory_run m p b
      { st with
        s := base₂ ++ [v₂, Value.str n₂], r := [],
        x := st.x ++ [encodeCell v], i := none,
        dict := (n, ⟨WordFn.doesBound (Value.num st.x.length) b, false⟩)
                  :: st.dict,
        lastDefined := some n }
      base₂ v₂ n₂
      (by rw [show ({ st with
            s := base₂ ++ [v₂, Value.str n₂], r := [],
            x := st.x ++ [encodeCell v], i := none,
            dict := (n, ⟨WordFn.doesBound (Value.num st.x.length) b,
              false⟩) :: st.dict,
            lastDefined := some n } : VM).x = st.x ++ [encodeCell v]
          from rfl, List.getElem?_append_left hp0]
          exact hx0)
      (by rw [show ({ st with
            s := base₂ ++ [v₂, Value.str n₂], r := [],
            x := st.x ++ [encodeCell v], i := none,
            dict := (n, ⟨WordFn.doesBound (Value.num st.x.length) b,
              false⟩) :: st.dict,
            lastDefined := some n } : VM).x = st.x ++ [encodeCell v]
          from rfl, List.getElem?_append_left hp1]
          exact hx1)
      (by rw [show ({ st with
            s := base₂ ++ [v₂, Value.str n₂], r := [],
            x := st.x ++ [encodeCell v], i := none,
            dict := (n, ⟨WordFn.doesBound (Value.num st.x.length) b,
              false⟩) :: st.dict,
            lastDefined := some n } : VM).x = st.x ++ [encodeCell v]
          from rfl, List.getElem?_append_left hp2]
          exact hx2)
      (by rw [show ({ st with
            s := base₂ ++ [v₂, Value.str n₂], r := [],
            x := st.x ++ [encodeCell v], i := none,
            dict := (n, ⟨WordFn.doesBound (Value.num st.x.length) b,
              false⟩) :: st.dict,
            lastDefined := some n } : VM).x = st.x ++ [encodeCell v]
          from rfl, List.getElem?_append_left hp3]
          exact hx3)
      rfl rfl rfl
  · simp only [dlookup, if_neg hne, if_pos]
  · rw [List.getElem?_append_left
      (show st.x.length < (st.x ++ [encodeCell v]).length by
        simp)]
    exact List.getElem?_concat_length st.x (encodeCell v)

/-- Witness for `create_does_protocol`: the `printer`-style factory of
d.js run on `5`/`"hello"`; invoking the created word `hello` pushes its
data-cell address and the shared `load`-behaviour then pushes the stored
`5`. -/
theorem create_does_protocol_witness :
    execFn 4 (WordFn.colon 0)
        ⟨[Value.num 5, Value.str "hello"], [],
          [Cell.createC, Cell.storeC, Cell.doesSet 4, Cell.exitc,
            Cell.loadC, Cell.exitc], none, [], none, false⟩ =
      some
        ⟨[], [],
          [Cell.createC, Cell.storeC, Cell.doesSet 4, Cell.exitc,
            Cell.loadC, Cell.exitc, Cell.data (Value.num 5)], none,
          [("hello", ⟨WordFn.doesBound (Value.num 6) 4, false⟩)],
          some "hello", false⟩ ∧
    execFn 2 (WordFn.doesBound (Value.num 6) 4)
        ⟨[], [],
          [Cell.createC, Cell.storeC, Cell.doesSet 4, Cell.exitc,
            Cell.loadC, Cell.exitc, Cell.data (Value.num 5)], none,
          [("hello", ⟨WordFn.doesBound (Value.num 6) 4, false⟩)],
          some "hello", false⟩ =
      some
        ⟨[Value.num 5], [],
          [Cell.createC, Cell.storeC, Cell.doesSet 4, Cell.exitc,
            Cell.loadC, Cell.exitc, Cell.data (Value.num 5)], none,
          [("hello", ⟨WordFn.doesBound (Value.num 6) 4, false⟩)],
          some "hello", false⟩ ∧
    dlookup "hello"
        [("Matthew", ⟨WordFn.doesBound (Value.num 7) 4, false⟩),
         ("hello", ⟨WordFn.doesBound (Value.num 6) 4, false⟩)] =
      some ⟨WordFn.doesBound (Value.num 6) 4, false⟩ := by
  have H := create_does_protocol 0 0 4
    ⟨[Value.num 5, Value.str "hello"], [],
      [Cell.createC, Cell.storeC, Cell.doesSet 4, Cell.exitc,
        Cell.loadC, Cell.exitc], none, [], none, false⟩
    [] [] (Value.num 5) (Value.num 7) "hello" "Matthew"
    rfl rfl rfl rfl rfl rfl rfl (by decide)
  refine ⟨H.1.trans rfl, ?_, ?_⟩
  · exact (H.2.1 2 (Value.num 6) 4
      ⟨[], [],
        [Cell.createC, Cell.storeC, Cell.doesSet 4, Cell.exitc,
          Cell.loadC, Cell.exitc, Cell.data (Value.num 5)], none,
        [("hello", ⟨WordFn.doesBound (Value.num 6) 4, false⟩)],
        some "hello", false⟩).trans rfl
  · exact H.2.2.1.2.1

end Gnat
